import Mathlib

/-!
Verification of the numerical-economics routines of the BootCamp2017 repository:
the deterministic-firm value-function-iteration (VFI) notebook
(`DeterministicFirmVFI.ipynb`) and the AR(1) discretization notebook
(`ApproxAR.ipynb`).

The integer/array parts of the notebooks (the VFI while loop, `np.max`,
`np.argmax`, and the `sim_markov` simulator) are embedded as computable
functions over `ℚ` and `List`; the exact-real-arithmetic parts (payoff matrix,
capital grid, Adda-Cooper transition matrix) are embedded over `ℝ`.
-/

/- ---------------------------------------------------------------------------
Part 1: computable embedding (ℚ) of DeterministicFirmVFI.ipynb, cells 14-18.
--------------------------------------------------------------------------- -/

/-- Binary maximum on ℚ, written with an explicit `if` (definitionally equal to
`max`, see `rmax_eq_max`). -/
def rmax (a b : ℚ) : ℚ := if a ≤ b then b else a

/-- Absolute value on ℚ, written with an explicit `if` (equal to `|·|`, see
`rabs_eq_abs`). -/
def rabs (a : ℚ) : ℚ := if a < 0 then -a else a

/-- Embedding of `np.max` on a row: maximum of a list (`0` for the empty list,
which never occurs in the notebook since `sizek > 0`). -/
def listMax : List ℚ → ℚ
  | [] => 0
  | x :: xs => xs.foldl rmax x

/-- Index of the first occurrence of `m` in `l` (`l.length`-free variant used
by `argmaxFirst`; returns 0 on the empty list). -/
def firstIdxOf (m : ℚ) : List ℚ → ℕ
  | [] => 0
  | x :: xs => if x = m then 0 else firstIdxOf m xs + 1

/-- Embedding of `np.argmax` on a row: index of the first occurrence of the
maximum (numpy documents that ties return the first index). -/
def argmaxFirst (l : List ℚ) : ℕ := firstIdxOf (listMax l) l

/-- Embedding of the inner double loop `Vmat[i, j] = e[i, j] + betafirm * V[j]`
(cell 16 of DeterministicFirmVFI.ipynb). -/
def Vmat (e : List (List ℚ)) (β : ℚ) (V : List ℚ) : List (List ℚ) :=
  e.map (fun row => List.zipWith (fun x v => x + β * v) row V)

/-- Embedding of `V = Vmat.max(axis=1)`. -/
def bellmanV (e : List (List ℚ)) (β : ℚ) (V : List ℚ) : List ℚ :=
  (Vmat e β V).map listMax

/-- Embedding of `PF = np.argmax(Vmat, axis=1)`. -/
def bellmanPF (e : List (List ℚ)) (β : ℚ) (V : List ℚ) : List ℕ :=
  (Vmat e β V).map argmaxFirst

/-- Embedding of `VFdist = (np.absolute(V - TV)).max()`. -/
def supDist (a b : List ℚ) : ℚ :=
  listMax (List.zipWith (fun x y => rabs (x - y)) a b)

/-- Loop state of the VFI while loop: `VFdist`, `V`, `PF` (unassigned before
the first pass, hence `Option`), and the counter `VFiter`. -/
structure VFIState where
  dist : ℚ
  V : List ℚ
  PF : Option (List ℕ)
  iter : ℕ
deriving DecidableEq, Repr

/-- Result of the VFI cell: final value function, policy (if assigned), final
distance, final counter, and the convergence report `VFiter < VFmaxiter` of
cell 16. -/
structure VFIResult where
  V : List ℚ
  PF : Option (List ℕ)
  dist : ℚ
  iters : ℕ
  converged : Bool
deriving DecidableEq, Repr

/-- The while loop `while VFdist > VFtol and VFiter < VFmaxiter` of cell 16.
The fuel argument equals `VFmaxiter - VFiter`, so `0 < fuel` is exactly the
guard `VFiter < VFmaxiter`. -/
def vfiLoop (e : List (List ℚ)) (β tol : ℚ) : ℕ → VFIState → VFIState
  | 0, s => s
  | fuel + 1, s =>
    if s.dist ≤ tol then s
    else
      vfiLoop e β tol fuel
        ⟨supDist (bellmanV e β s.V) s.V, bellmanV e β s.V,
         some (bellmanPF e β s.V), s.iter + 1⟩

/-- The VFI cell: `V` initialized to zeros, `VFdist = 7.0`, `VFiter = 1`, run
the while loop, then report convergence as `VFiter < VFmaxiter`. -/
def vfi (e : List (List ℚ)) (β tol : ℚ) (maxiter : ℕ) : VFIResult :=
  let s := vfiLoop e β tol (maxiter - 1) ⟨7, List.replicate e.length 0, none, 1⟩
  ⟨s.V, s.PF, s.dist, s.iter, decide (s.iter < maxiter)⟩

/-- Candidate value in the words of claim C1: `payoff[i][j] + β·V[j]`. -/
def specCandidate (e : List (List ℚ)) (β : ℚ) (V : List ℚ) (i j : ℕ) : ℚ :=
  (e.getD i []).getD j 0 + β * V.getD j 0

/- ---------------------------------------------------------------------------
Part 2: computable embedding (ℚ) of `sim_markov` (ApproxAR.ipynb, cell 11).
--------------------------------------------------------------------------- -/

/-- The inner while loop of `sim_markov`:
`sum_p = 0; ind = 0; while sum_p < u[i]: sum_p += pi[ind, oldind]; ind += 1`
followed by `if ind > 0: ind -= 1`.  The list argument is the remaining tail
of the rows of `pi`; when the loop would read `pi[ind, oldind]` past the last
row (or past the end of a row) numpy raises `IndexError`, modeled as `none`. -/
def simSelectAux (old : ℕ) (u : ℚ) : List (List ℚ) → ℚ → ℕ → Option ℕ
  | [], sp, ind =>
    if sp < u then none else some (if 0 < ind then ind - 1 else ind)
  | row :: rest, sp, ind =>
    if sp < u then
      match row[old]? with
      | none => none
      | some p => simSelectAux old u rest (sp + p) (ind + 1)
    else some (if 0 < ind then ind - 1 else ind)

/-- Next-state index selection of `sim_markov` for current state `old` and
uniform draw `u`. -/
def simSelect (pi : List (List ℚ)) (old : ℕ) (u : ℚ) : Option ℕ :=
  simSelectAux old u pi 0 0

/-- One pass of the `for i in range(1, num_draws)` body: select the index,
then read `z_grid[ind]` (out-of-bounds reads are `IndexError`, i.e. `none`). -/
def simStep (zg : List ℚ) (pi : List (List ℚ)) (old : ℕ) (u : ℚ) :
    Option (ℚ × ℕ) :=
  match simSelect pi old u with
  | none => none
  | some ind =>
    match zg[ind]? with
    | none => none
    | some z => some (z, ind)

/-- The `for i in range(1, num_draws)` loop, fed the draws `u[1:]`. -/
def simLoop (zg : List ℚ) (pi : List (List ℚ)) : List ℚ → ℕ → Option (List ℚ)
  | [], _ => some []
  | u :: us, old =>
    match simStep zg pi old u with
    | none => none
    | some zi => (simLoop zg pi us zi.2).map (fun t => zi.1 :: t)

/-- Embedding of `sim_markov(z_grid, pi, num_draws)` with the uniform draws
`u` passed explicitly (the code draws them with `np.random.uniform`; `u[0]` is
never used).  `oldind = int(np.ceil((N - 1) / 2))`, which equals `N / 2` in
natural division for every `N ≥ 1`; `z_discrete[0] = z_grid[oldind]`.  When
`num_draws = 0` the assignment `z_discrete[0] = ...` raises `IndexError`. -/
def sim_markov (zg : List ℚ) (pi : List (List ℚ)) (u : List ℚ) :
    Option (List ℚ) :=
  match u with
  | [] => none
  | _ :: us =>
    match zg[zg.length / 2]? with
    | none => none
    | some z0 => (simLoop zg pi us (zg.length / 2)).map (fun t => z0 :: t)

/-- Cumulative sum of the current state's column of `pi`:
`colCum pi old m = pi[0][old] + ... + pi[m-1][old]`. -/
def colCum (pi : List (List ℚ)) (old : ℕ) (m : ℕ) : ℚ :=
  ((pi.take m).map (fun row => row.getD old 0)).sum

/-- Helper for `specRowSelect`: scan the row accumulating the cumulative sum
`c`, returning the first index at which the cumulative sum strictly exceeds
the draw `u`. -/
def specRowSelectAux (u : ℚ) : ℚ → List ℚ → ℕ → Option ℕ
  | _, [], _ => none
  | c, p :: rest, j =>
    if u < c + p then some j else specRowSelectAux u (c + p) rest (j + 1)

/-- Selection rule in the words of claim C4: the smallest index whose
cumulative transition probability, taken from the current state's row of the
transition matrix argument, strictly exceeds the draw. -/
def specRowSelect (pi : List (List ℚ)) (old : ℕ) (u : ℚ) : Option ℕ :=
  specRowSelectAux u 0 (pi.getD old []) 0

/- ---------------------------------------------------------------------------
Part 3: exact-real embedding of the payoff matrix and capital grid
(DeterministicFirmVFI.ipynb, cells 8 and 12).  Python `**` on positive reals
is `Real.rpow` (`x ^ y` below).
--------------------------------------------------------------------------- -/

/-- Embedding of the operating-profit cell:
`op = (1-alpha_l) * ((alpha_l/w) ** (alpha_l/(1-alpha_l))) * ((k**alpha_k) ** (1/(1-alpha_l)))`. -/
noncomputable def opCode (alpha_k alpha_l w k : ℝ) : ℝ :=
  (1 - alpha_l) * ((alpha_l / w) ^ (alpha_l / (1 - alpha_l)))
    * ((k ^ alpha_k) ^ (1 / (1 - alpha_l)))

/-- Embedding of the firm cash-flow entry
`e[i,j] = op[i] - kvec[j] + (1-delta)*kvec[i] - (psi/2)*(kvec[j]-(1-delta)*kvec[i])**2 / kvec[i]`. -/
noncomputable def eCode (alpha_k alpha_l delta psi w ki kj : ℝ) : ℝ :=
  opCode alpha_k alpha_l w ki - kj + (1 - delta) * ki
    - psi / 2 * (kj - (1 - delta) * ki) ^ (2 : ℕ) / ki

/-- Operating profit in the words of claim C6:
`π(k) = (1-α_l)·(α_l/w)^(α_l/(1-α_l))·k^(α_k/(1-α_l))`. -/
noncomputable def piSpec (alpha_k alpha_l w k : ℝ) : ℝ :=
  (1 - alpha_l) * ((alpha_l / w) ^ (alpha_l / (1 - alpha_l)))
    * (k ^ (alpha_k / (1 - alpha_l)))

/-- Payoff entry in the words of claim C6:
`payoff[i][j] = π(k_i) - (k_j-(1-δ)k_i) - (ψ/2)·((k_j-(1-δ)k_i)/k_i)²·k_i`. -/
noncomputable def payoffSpec (alpha_k alpha_l delta psi w ki kj : ℝ) : ℝ :=
  piSpec alpha_k alpha_l w ki - (kj - (1 - delta) * ki)
    - psi / 2 * ((kj - (1 - delta) * ki) / ki) ^ (2 : ℕ) * ki

/-- Embedding of the `kstar` cell (with the notebook's `z`):
`kstar = (((1/betafirm - 1 + delta) * ((w/alpha_l) ** (alpha_l/(1-alpha_l)))) /
(alpha_k * z ** (1/(1-alpha_l)))) ** ((1-alpha_l)/(alpha_k+alpha_l-1))`. -/
noncomputable def kstarCode (alpha_k alpha_l delta w betafirm z : ℝ) : ℝ :=
  (((1 / betafirm - 1 + delta) * ((w / alpha_l) ^ (alpha_l / (1 - alpha_l))))
      / (alpha_k * z ^ (1 / (1 - alpha_l))))
    ^ ((1 - alpha_l) / (alpha_k + alpha_l - 1))

/-- Frictionless steady-state capital in the words of claim C7:
`k* = [(α_k/(1/β-1+δ))^(1-α_l)·(α_l/w)^(α_l)]^(1/(1-α_k-α_l))`. -/
noncomputable def kstarSpec (alpha_k alpha_l delta w betafirm : ℝ) : ℝ :=
  ((alpha_k / (1 / betafirm - 1 + delta)) ^ (1 - alpha_l)
      * (alpha_l / w) ^ alpha_l)
    ^ (1 / (1 - alpha_k - alpha_l))

/-- Embedding of `numb = np.ceil(krat / np.log(1 - delta))` with
`krat = np.log(lb_k / ub_k)`, times the grid density (`int(numb * dens)`). -/
noncomputable def gridSize (lb ub delta : ℝ) (dens : ℕ) : ℕ :=
  (⌈Real.log (lb / ub) / Real.log (1 - delta)⌉).toNat * dens

/-- Embedding of the loop `K[j] = ub_k * (1 - delta) ** (j / dens)`. -/
noncomputable def Kgrid (ub delta : ℝ) (dens n : ℕ) : List ℝ :=
  (List.range n).map (fun j : ℕ => ub * (1 - delta) ^ ((j : ℝ) / (dens : ℝ)))

/-- Embedding of the capital-grid cell: `kbar = 2*kstar`, `lb_k = 0.001`,
`ub_k = kbar`, build `K`, then `kvec = K[::-1]` (the notebook has `z = 1`). -/
noncomputable def kvecCode (alpha_k alpha_l delta w betafirm : ℝ)
    (dens : ℕ) : List ℝ :=
  (Kgrid (2 * kstarCode alpha_k alpha_l delta w betafirm 1) delta dens
    (gridSize (1 / 1000) (2 * kstarCode alpha_k alpha_l delta w betafirm 1)
      delta dens)).reverse

/- ---------------------------------------------------------------------------
Part 4: exact-real embedding of the Adda-Cooper transition-matrix construction
(ApproxAR.ipynb, cells 5 and 9), plus the other discretization methods of the
spec (their code, `ar1_approx.py`, is not part of the source tree).
`scipy.integrate.quad` is exact integration here, `norm.cdf`/`norm.ppf` are
the standard-normal CDF and quantile function.
--------------------------------------------------------------------------- -/

/-- Standard normal density (scipy's `norm.pdf`). -/
noncomputable def stdNormalPdf (x : ℝ) : ℝ :=
  (Real.sqrt (2 * Real.pi))⁻¹ * Real.exp (-(x ^ 2) / 2)

/-- Standard normal CDF (scipy's `norm.cdf`). -/
noncomputable def stdNormalCdf (t : ℝ) : ℝ :=
  ∫ x in Set.Iic t, stdNormalPdf x

/-- Standard normal quantile function (scipy's `norm.ppf`), as the inverse of
the CDF; on (0,1) it is a genuine right inverse (`stdNormalCdf_ppf`). -/
noncomputable def stdNormalPpf (p : ℝ) : ℝ :=
  Function.invFun stdNormalCdf p

/-- Embedding of `sigma_z = sigma_eps / ((1 - rho ** 2) ** (1 / 2))`. -/
noncomputable def sigmaZ (rho sigma_eps : ℝ) : ℝ :=
  sigma_eps / Real.sqrt (1 - rho ^ 2)

/-- Embedding of `z_cutoffs = (sigma_z * norm.ppf(np.arange(N + 1) / N)) + mu`
for the interior indices `0 < i < N`; `z_cutoffs[0] = -inf` and
`z_cutoffs[N] = +inf` (`norm.ppf` at 0 and 1) are handled where they are
consumed (`acCdfTerm`, `acCell`). -/
noncomputable def zCut (mu sz : ℝ) (N i : ℕ) : ℝ :=
  sz * stdNormalPpf ((i : ℝ) / (N : ℝ)) + mu

/-- The factor `norm.cdf((z_cutoffs[j] - mu*(1-rho) - rho*x) / sigma_eps)` of
the Adda-Cooper integrand; at the float sentinels `norm.cdf(-inf) = 0` (j = 0)
and `norm.cdf(+inf) = 1` (j = N). -/
noncomputable def acCdfTerm (mu rho sigma_eps sz : ℝ) (N j : ℕ) (x : ℝ) : ℝ :=
  if j = 0 then 0
  else if N ≤ j then 1
  else stdNormalCdf ((zCut mu sz N j - mu * (1 - rho) - rho * x) / sigma_eps)

/-- Embedding of `integrand(x, sigma_z, sigma_eps, rho, mu, z_cutoffs[j],
z_cutoffs[j+1])` of cell 9. -/
noncomputable def acIntegrand (mu rho sigma_eps sz : ℝ) (N j : ℕ) (x : ℝ) : ℝ :=
  Real.exp (-((x - mu) ^ 2) / (2 * sz ^ 2))
    * (acCdfTerm mu rho sigma_eps sz N (j + 1) x
       - acCdfTerm mu rho sigma_eps sz N j x)

/-- The integration range `z_cutoffs[i] .. z_cutoffs[i+1]` of row `i` as a set
of reals; the first and last rows extend to `-inf` and `+inf`. -/
noncomputable def acCell (mu sz : ℝ) (N i : ℕ) : Set ℝ :=
  if i = 0 then Set.Iic (zCut mu sz N 1)
  else if i + 1 = N then Set.Ioi (zCut mu sz N i)
  else Set.Ioc (zCut mu sz N i) (zCut mu sz N (i + 1))

/-- Embedding of
`pi[i,j] = (N / np.sqrt(2 * np.pi * sigma_z ** 2)) * quad(integrand, z_cutoffs[i], z_cutoffs[i+1], args)[0]`. -/
noncomputable def acPi (mu rho sigma_eps : ℝ) (N i j : ℕ) : ℝ :=
  ((N : ℝ) / Real.sqrt (2 * Real.pi * (sigmaZ rho sigma_eps) ^ 2))
    * ∫ x in acCell mu (sigmaZ rho sigma_eps) N i,
        acIntegrand mu rho sigma_eps (sigmaZ rho sigma_eps) N j x

/-- Modelled from the spec: zero-padding of a k×k matrix used by the
Rouwenhorst expansion step (`ar1_approx.rouwen` is not in the source tree). -/
def rouwenPad (P : ℕ → ℕ → ℝ) (k i j : ℕ) : ℝ :=
  if i < k ∧ j < k then P i j else 0

/-- Modelled from the spec: one Rouwenhorst expansion step, from a k-state
matrix to a (k+1)-state matrix — four shifted zero-padded copies weighted by
`p`, `1-p`, `1-q`, `q`, summed, with the interior rows (1..k-1 of the new
matrix) divided by 2. -/
noncomputable def rouwenExpand (p q : ℝ) (P : ℕ → ℕ → ℝ) (k i j : ℕ) : ℝ :=
  (if 1 ≤ i ∧ i ≤ k - 1 then (2 : ℝ)⁻¹ else 1)
    * (p * rouwenPad P k i j
       + (1 - p) * (if 1 ≤ j then rouwenPad P k i (j - 1) else 0)
       + (1 - q) * (if 1 ≤ i then rouwenPad P k (i - 1) j else 0)
       + q * (if 1 ≤ i ∧ 1 ≤ j then rouwenPad P k (i - 1) (j - 1) else 0))

/-- Modelled from the spec: the k-state Rouwenhorst transition matrix with
parameters `p`, `q`, built recursively from the 1-state matrix `[[1]]` (one
expansion step yields the spec's 2-state matrix `[[p, 1-p], [1-q, q]]`). -/
noncomputable def rouwenMat (p q : ℝ) : (k : ℕ) → ℕ → ℕ → ℝ
  | 0 => fun _ _ => 0
  | 1 => fun _ _ => 1
  | k + 2 => rouwenExpand p q (rouwenMat p q (k + 1)) (k + 1)

/-- Modelled from the spec: Rouwenhorst with `p = q = (1 + ρ)/2`. -/
noncomputable def rouwen (rho : ℝ) (k : ℕ) : ℕ → ℕ → ℝ :=
  rouwenMat ((1 + rho) / 2) ((1 + rho) / 2) k

/-- Modelled from the spec: the evenly spaced Tauchen grid spanning
`±(span·σ_z)` around `μ`. -/
noncomputable def tauchenGrid (mu sz span : ℝ) (N i : ℕ) : ℝ :=
  mu - span * sz + 2 * span * sz * (i : ℝ) / ((N : ℝ) - 1)

/-- Modelled from the spec: cumulative normal-CDF value of the Tauchen rule at
the midpoint below grid cell `j` (0 below the first cell, 1 above the last —
the absorbed tails). -/
noncomputable def tauchenCum (mu rho sigma_eps sz span : ℝ) (N i j : ℕ) : ℝ :=
  if j = 0 then 0
  else if N ≤ j then 1
  else stdNormalCdf
    (((tauchenGrid mu sz span N (j - 1) + tauchenGrid mu sz span N j) / 2
        - rho * tauchenGrid mu sz span N i - mu * (1 - rho)) / sigma_eps)

/-- Modelled from the spec: Tauchen transition probabilities — normal-CDF
differences between the midpoints of adjacent grid cells, tails absorbed into
the boundary probabilities. -/
noncomputable def tauchenPi (mu rho sigma_eps sz span : ℝ) (N i j : ℕ) : ℝ :=
  tauchenCum mu rho sigma_eps sz span N i (j + 1)
    - tauchenCum mu rho sigma_eps sz span N i j

/-- Modelled from the spec: Tauchen-Hussey transition probabilities — a matrix
of Gauss-Hermite-based weights `w`, row-normalized. -/
noncomputable def thPi (w : ℕ → ℕ → ℝ) (N i j : ℕ) : ℝ :=
  w i j / ∑ k in Finset.range N, w i k


theorem rmax_eq_max (a b : ℚ) : rmax a b = max a b := by
  rw [rmax, max_def]

theorem rabs_eq_abs (a : ℚ) : rabs a = |a| := by
  rw [rabs]
  by_cases h : a < 0
  · rw [if_pos h, abs_of_neg h]
  · rw [if_neg h, abs_of_nonneg (not_lt.1 h)]

theorem foldl_rmax_eq_foldl_max (xs : List ℚ) (a : ℚ) :
    xs.foldl rmax a = xs.foldl max a := by
  induction xs generalizing a with
  | nil => rfl
  | cons x xs ih => rw [List.foldl_cons, List.foldl_cons, rmax_eq_max, ih]

theorem le_foldl_max (xs : List ℚ) (a : ℚ) : a ≤ xs.foldl max a := by
  induction xs generalizing a with
  | nil => simp
  | cons x xs ih => exact le_trans (le_max_left a x) (ih (max a x))

theorem mem_le_foldl_max {xs : List ℚ} {x : ℚ} (a : ℚ) (hx : x ∈ xs) :
    x ≤ xs.foldl max a := by
  induction xs generalizing a with
  | nil => cases hx
  | cons y ys ih =>
    rcases List.mem_cons.1 hx with h | h
    · subst h
      exact le_trans (le_max_right a x) (le_foldl_max ys (max a x))
    · exact ih (max a y) h

theorem foldl_max_mem (xs : List ℚ) (a : ℚ) :
    xs.foldl max a = a ∨ xs.foldl max a ∈ xs := by
  induction xs generalizing a with
  | nil => exact Or.inl rfl
  | cons x xs ih =>
    rcases ih (max a x) with h | h
    · rcases max_choice a x with h2 | h2
      · exact Or.inl (by rw [List.foldl_cons, h, h2])
      · exact Or.inr (by rw [List.foldl_cons, h, h2]; exact List.mem_cons_self x xs)
    · exact Or.inr (List.mem_cons_of_mem x h)

theorem listMax_mem {l : List ℚ} (h : l ≠ []) : listMax l ∈ l := by
  cases l with
  | nil => exact absurd rfl h
  | cons x xs =>
    rw [listMax, foldl_rmax_eq_foldl_max]
    rcases foldl_max_mem xs x with h2 | h2
    · rw [h2]; exact List.mem_cons_self x xs
    · exact List.mem_cons_of_mem x h2

theorem le_listMax {l : List ℚ} {x : ℚ} (hx : x ∈ l) : x ≤ listMax l := by
  cases l with
  | nil => cases hx
  | cons y ys =>
    rw [listMax, foldl_rmax_eq_foldl_max]
    rcases List.mem_cons.1 hx with h | h
    · subst h; exact le_foldl_max ys x
    · exact mem_le_foldl_max y h

theorem firstIdxOf_lt_length {m : ℚ} {l : List ℚ} (h : m ∈ l) :
    firstIdxOf m l < l.length := by
  induction l with
  | nil => cases h
  | cons x xs ih =>
    rw [firstIdxOf]
    by_cases hx : x = m
    · rw [if_pos hx]; simp
    · rw [if_neg hx]
      have hm : m ∈ xs := by
        rcases List.mem_cons.1 h with h1 | h1
        · exact absurd h1.symm hx
        · exact h1
      simpa using ih hm

theorem firstIdxOf_getD {m : ℚ} {l : List ℚ} (h : m ∈ l) :
    l.getD (firstIdxOf m l) 0 = m := by
  induction l with
  | nil => cases h
  | cons x xs ih =>
    rw [firstIdxOf]
    by_cases hx : x = m
    · rw [if_pos hx]; simpa using hx
    · rw [if_neg hx]
      have hm : m ∈ xs := by
        rcases List.mem_cons.1 h with h1 | h1
        · exact absurd h1.symm hx
        · exact h1
      simpa using ih hm

theorem before_firstIdxOf_ne {m : ℚ} {l : List ℚ} {j : ℕ}
    (hj : j < firstIdxOf m l) : l.getD j 0 ≠ m := by
  induction l generalizing j with
  | nil => simp [firstIdxOf] at hj
  | cons x xs ih =>
    rw [firstIdxOf] at hj
    by_cases hx : x = m
    · rw [if_pos hx] at hj; omega
    · rw [if_neg hx] at hj
      cases j with
      | zero => simpa using hx
      | succ k =>
        have : k < firstIdxOf m xs := by omega
        simpa using ih this

theorem argmaxFirst_lt {l : List ℚ} (h : l ≠ []) : argmaxFirst l < l.length :=
  firstIdxOf_lt_length (listMax_mem h)

theorem argmaxFirst_getD {l : List ℚ} (h : l ≠ []) :
    l.getD (argmaxFirst l) 0 = listMax l :=
  firstIdxOf_getD (listMax_mem h)

theorem before_argmaxFirst_ne {l : List ℚ} {m : ℕ} (hm : m < argmaxFirst l) :
    l.getD m 0 ≠ listMax l :=
  before_firstIdxOf_ne hm

theorem getD_eq_getElem_of_lt {α : Type} {l : List α} {k : ℕ} (d : α)
    (hk : k < l.length) : l.getD k d = l[k] := by
  rw [List.getD_eq_getElem?_getD, List.getElem?_eq_getElem hk]
  rfl

/-- C1: in every VFI iteration, for every pair of in-range capital-grid
indices (i, j) the candidate value `Vmat[i][j]` equals `payoff[i][j] + β·V[j]`;
the updated value `V_new[i]` equals the maximum of these candidates over j,
and `PF[i]` equals the argmax over j, with ties broken by the lowest index j
attaining the maximum. -/
theorem C1_bellman_update
    (e : List (List ℚ)) (β : ℚ) (V : List ℚ) (n i : ℕ)
    (he : e.length = n) (hrows : ∀ r ∈ e, r.length = n) (hV : V.length = n)
    (hi : i < n) :
    (∀ j, j < n →
      ((Vmat e β V).getD i []).getD j 0 = specCandidate e β V i j)
    ∧ (∃ j, j < n ∧ specCandidate e β V i j = (bellmanV e β V).getD i 0)
    ∧ (∀ j, j < n → specCandidate e β V i j ≤ (bellmanV e β V).getD i 0)
    ∧ ((bellmanPF e β V).getD i 0 < n
       ∧ specCandidate e β V i ((bellmanPF e β V).getD i 0)
           = (bellmanV e β V).getD i 0
       ∧ ∀ m, m < (bellmanPF e β V).getD i 0 →
           specCandidate e β V i m < (bellmanV e β V).getD i 0) := by
  have hie : i < e.length := by rw [he]; exact hi
  have hrlen : (e.getD i []).length = n := by
    rw [getD_eq_getElem_of_lt [] hie]
    exact hrows _ (List.getElem_mem hie)
  have hn : 0 < n := lt_of_le_of_lt (Nat.zero_le i) hi
  have hVmlen : (Vmat e β V).length = e.length := by simp [Vmat]
  have hiVm : i < (Vmat e β V).length := by rw [hVmlen]; exact hie
  have hVm : (Vmat e β V).getD i []
      = List.zipWith (fun x v => x + β * v) (e.getD i []) V := by
    rw [getD_eq_getElem_of_lt [] hiVm]
    rw [getD_eq_getElem_of_lt [] hie]
    simp [Vmat]
  have hrowlen : ((Vmat e β V).getD i []).length = n := by
    rw [hVm, List.length_zipWith, hrlen, hV]
    exact min_self n
  have hrowne : (Vmat e β V).getD i [] ≠ [] := by
    intro hcon
    rw [hcon] at hrowlen
    simp at hrowlen
    rw [← hrowlen] at hn
    exact absurd hn (lt_irrefl 0)
  have hentry : ∀ j, j < n →
      ((Vmat e β V).getD i []).getD j 0 = specCandidate e β V i j := by
    intro j hj
    have hjrow : j < ((Vmat e β V).getD i []).length := by rw [hrowlen]; exact hj
    have hjr : j < (e.getD i []).length := by rw [hrlen]; exact hj
    have hjV : j < V.length := by rw [hV]; exact hj
    have hzip : j < (List.zipWith (fun x v => x + β * v) (e.getD i []) V).length := by
      rw [List.length_zipWith, hrlen, hV, min_self]
      exact hj
    have hrow_eq : ((Vmat e β V).getD i [])[j]
        = (List.zipWith (fun x v => x + β * v) (e.getD i []) V)[j] := by
      simp only [hVm]
    have hspec : specCandidate e β V i j = (e.getD i [])[j] + β * V[j] := by
      unfold specCandidate
      rw [getD_eq_getElem_of_lt 0 hjr, getD_eq_getElem_of_lt 0 hjV]
    rw [getD_eq_getElem_of_lt 0 hjrow, hrow_eq, List.getElem_zipWith, hspec]
  have hbV : (bellmanV e β V).getD i 0 = listMax ((Vmat e β V).getD i []) := by
    have hib : i < (bellmanV e β V).length := by
      simpa [bellmanV, Vmat] using hie
    rw [getD_eq_getElem_of_lt 0 hib]
    rw [getD_eq_getElem_of_lt [] hiVm]
    simp [bellmanV]
  have hbPF : (bellmanPF e β V).getD i 0 = argmaxFirst ((Vmat e β V).getD i []) := by
    have hib : i < (bellmanPF e β V).length := by
      simpa [bellmanPF, Vmat] using hie
    rw [getD_eq_getElem_of_lt 0 hib]
    rw [getD_eq_getElem_of_lt [] hiVm]
    simp [bellmanPF]
  refine ⟨hentry, ?_, ?_, ?_, ?_, ?_⟩
  · obtain ⟨j, hjlen, hjget⟩ := List.mem_iff_getElem.1 (listMax_mem hrowne)
    have hjn : j < n := by rw [← hrowlen]; exact hjlen
    refine ⟨j, hjn, ?_⟩
    rw [← hentry j hjn, hbV, getD_eq_getElem_of_lt 0 hjlen, hjget]
  · intro j hj
    have hjlen : j < ((Vmat e β V).getD i []).length := by rw [hrowlen]; exact hj
    rw [← hentry j hj, hbV, getD_eq_getElem_of_lt 0 hjlen]
    exact le_listMax (List.getElem_mem hjlen)
  · rw [hbPF, ← hrowlen]
    exact argmaxFirst_lt hrowne
  · have hpn : argmaxFirst ((Vmat e β V).getD i []) < n := by
      rw [← hrowlen]; exact argmaxFirst_lt hrowne
    rw [hbPF, hbV, ← hentry _ hpn]
    exact argmaxFirst_getD hrowne
  · intro m hm
    rw [hbPF] at hm
    have hmn : m < n :=
      lt_trans hm (by rw [← hrowlen]; exact argmaxFirst_lt hrowne)
    rw [← hentry m hmn, hbV]
    have hle : ((Vmat e β V).getD i []).getD m 0
        ≤ listMax ((Vmat e β V).getD i []) := by
      have hmlen : m < ((Vmat e β V).getD i []).length := by rw [hrowlen]; exact hmn
      rw [getD_eq_getElem_of_lt 0 hmlen]
      exact le_listMax (List.getElem_mem hmlen)
    exact lt_of_le_of_ne hle (before_argmaxFirst_ne hm)

theorem vfiLoop_iter_spec (e : List (List ℚ)) (β tol : ℚ) :
    ∀ (fuel : ℕ) (s : VFIState),
      (vfiLoop e β tol fuel s).iter ≤ s.iter + fuel
      ∧ ((vfiLoop e β tol fuel s).dist ≤ tol
         ∨ (vfiLoop e β tol fuel s).iter = s.iter + fuel) := by
  intro fuel
  induction fuel with
  | zero => intro s; exact ⟨le_refl _, Or.inr rfl⟩
  | succ f ih =>
    intro s
    rw [vfiLoop]
    by_cases h : s.dist ≤ tol
    · rw [if_pos h]
      exact ⟨Nat.le_add_right _ _, Or.inl h⟩
    · rw [if_neg h]
      obtain ⟨h1, h2⟩ := ih ⟨supDist (bellmanV e β s.V) s.V, bellmanV e β s.V,
        some (bellmanPF e β s.V), s.iter + 1⟩
      refine ⟨by simp at h1 ⊢; omega, ?_⟩
      rcases h2 with h2 | h2
      · exact Or.inl h2
      · right
        simp at h2
        omega

/-- C3 (amended): the loop guard is `dist > tol` and `counter < maxIter`,
with the distance initialized to the sentinel 7.0 and the counter starting at
1 and incremented once per update; hence at most `maxIter - 1` Bellman updates
are performed (`iters - 1 ≤ maxIter - 1`), at exit the tracked distance is
≤ tol or the counter equals maxIter, and exiting with the counter below
maxIter implies the distance condition — whichever guard fails first ends the
loop. -/
theorem C3_termination (e : List (List ℚ)) (β tol : ℚ) (maxiter : ℕ)
    (h : 1 ≤ maxiter) :
    (vfi e β tol maxiter).iters - 1 ≤ maxiter - 1
    ∧ ((vfi e β tol maxiter).dist ≤ tol ∨ (vfi e β tol maxiter).iters = maxiter)
    ∧ ((vfi e β tol maxiter).iters < maxiter → (vfi e β tol maxiter).dist ≤ tol) := by
  obtain ⟨h1, h2⟩ := vfiLoop_iter_spec e β tol (maxiter - 1)
    ⟨7, List.replicate e.length 0, none, 1⟩
  simp only [vfi]
  simp at h1
  constructor
  · omega
  constructor
  · rcases h2 with h2 | h2
    · exact Or.inl h2
    · right
      simp at h2
      omega
  · intro hlt
    rcases h2 with h2 | h2
    · exact h2
    · simp at h2
      omega

/-- C8 (amended): the solver reports converged = false iff the iteration
counter reached maxIter at exit — even when the final update's sup-norm
distance is ≤ tol — and converged = true implies the distance condition held;
the report is a structured result (a returned flag), never a thrown error. -/
theorem C8_convergence_flag (e : List (List ℚ)) (β tol : ℚ) (maxiter : ℕ)
    (h : 1 ≤ maxiter) :
    ((vfi e β tol maxiter).converged = false ↔ (vfi e β tol maxiter).iters = maxiter)
    ∧ ((vfi e β tol maxiter).converged = true → (vfi e β tol maxiter).dist ≤ tol) := by
  obtain ⟨h1, h2⟩ := vfiLoop_iter_spec e β tol (maxiter - 1)
    ⟨7, List.replicate e.length 0, none, 1⟩
  simp only [vfi]
  simp at h1 ⊢
  constructor
  · omega
  · intro hlt
    rcases h2 with h2 | h2
    · exact h2
    · simp at h2
      omega

/-- C9 (amended): calling the solver with maxIter = 0 returns
converged = false and a value function equal to the zero initial guess,
unchanged; no policy is returned, since the policy variable is only assigned
inside the loop, which never runs. -/
theorem C9_maxiter_zero (e : List (List ℚ)) (β tol : ℚ) :
    vfi e β tol 0 = ⟨List.replicate e.length 0, none, 7, 1, false⟩ := rfl

/-- C3 (counterexample): with `maxIter = 2` and a tolerance that is never
met the solver performs a single Bellman update (V = [1], the one-update
value) before giving up, not the `maxIter` updates of the claim; two updates
would give [3/2]. -/
theorem C3_counterexample :
    (vfi [[1]] (1/2) (1/1000) 2).converged = false
    ∧ (vfi [[1]] (1/2) (1/1000) 2).iters = 2
    ∧ (vfi [[1]] (1/2) (1/1000) 2).V = [1]
    ∧ bellmanV [[1]] (1/2) (bellmanV [[1]] (1/2) (List.replicate 1 0)) = [3/2]
    ∧ (vfi [[1]] (1/2) (1/1000) 2).V
        ≠ bellmanV [[1]] (1/2) (bellmanV [[1]] (1/2) (List.replicate 1 0)) := by
  norm_num [vfi, vfiLoop, bellmanV, bellmanPF, Vmat, supDist, listMax,
    argmaxFirst, firstIdxOf, rmax, rabs]

/-- C8 (counterexample): the sup-norm distance reaches ≤ tol within the
iteration cap (a single update, with distance 0), yet the solver reports
converged = false because the counter hit maxIter on that same update. -/
theorem C8_counterexample :
    (vfi [[0]] (1/2) (1/1000) 2).dist ≤ 1/1000
    ∧ (vfi [[0]] (1/2) (1/1000) 2).iters - 1 = 1
    ∧ (vfi [[0]] (1/2) (1/1000) 2).converged = false := by
  norm_num [vfi, vfiLoop, bellmanV, bellmanPF, Vmat, supDist, listMax,
    argmaxFirst, firstIdxOf, rmax, rabs]

/-- C9 (counterexample): with maxIter = 0 the solver returns converged =
false and V equal to the zero initial guess, but no policy at all: `PF` is
never assigned (the notebook's later `optK = kvec[PF]` would raise
`NameError`), refuting the claim's "still returns a (best-effort) policy". -/
theorem C9_counterexample :
    (vfi [[5]] (1/2) (1/1000) 0).PF = none
    ∧ (vfi [[5]] (1/2) (1/1000) 0).V = [0]
    ∧ (vfi [[5]] (1/2) (1/1000) 0).converged = false := by
  norm_num [vfi, vfiLoop]

/-- Witness for C1 at a concrete 1×1 instance. -/
theorem C1_bellman_update_witness :
    ([[(1:ℚ)]] : List (List ℚ)).length = 1
    ∧ (∀ r ∈ ([[(1:ℚ)]] : List (List ℚ)), r.length = 1)
    ∧ ([(0:ℚ)] : List ℚ).length = 1
    ∧ 0 < 1
    ∧ ((∀ j, j < 1 →
        ((Vmat [[1]] (1/2) [0]).getD 0 []).getD j 0 = specCandidate [[1]] (1/2) [0] 0 j)
      ∧ (∃ j, j < 1 ∧ specCandidate [[1]] (1/2) [0] 0 j = (bellmanV [[1]] (1/2) [0]).getD 0 0)
      ∧ (∀ j, j < 1 → specCandidate [[1]] (1/2) [0] 0 j ≤ (bellmanV [[1]] (1/2) [0]).getD 0 0)
      ∧ ((bellmanPF [[1]] (1/2) [0]).getD 0 0 < 1
         ∧ specCandidate [[1]] (1/2) [0] 0 ((bellmanPF [[1]] (1/2) [0]).getD 0 0)
             = (bellmanV [[1]] (1/2) [0]).getD 0 0
         ∧ ∀ m, m < (bellmanPF [[1]] (1/2) [0]).getD 0 0 →
             specCandidate [[1]] (1/2) [0] 0 m < (bellmanV [[1]] (1/2) [0]).getD 0 0)) :=
  ⟨by decide, by decide, by decide, by decide,
    C1_bellman_update [[1]] (1/2) [0] 1 0 (by decide) (by decide) (by decide) (by decide)⟩

/-- Witness for C3's amended theorem at a concrete 1×1 instance. -/
theorem C3_termination_witness :
    1 ≤ 2
    ∧ ((vfi [[(1:ℚ)]] (1/2) (1/1000) 2).iters - 1 ≤ 2 - 1
      ∧ ((vfi [[(1:ℚ)]] (1/2) (1/1000) 2).dist ≤ 1/1000
         ∨ (vfi [[(1:ℚ)]] (1/2) (1/1000) 2).iters = 2)
      ∧ ((vfi [[(1:ℚ)]] (1/2) (1/1000) 2).iters < 2
         → (vfi [[(1:ℚ)]] (1/2) (1/1000) 2).dist ≤ 1/1000)) :=
  ⟨by decide, C3_termination [[1]] (1/2) (1/1000) 2 (by decide)⟩

/-- Witness for C8's amended theorem at a concrete 1×1 instance. -/
theorem C8_convergence_flag_witness :
    1 ≤ 2
    ∧ (((vfi [[(1:ℚ)]] (1/2) (1/1000) 2).converged = false
        ↔ (vfi [[(1:ℚ)]] (1/2) (1/1000) 2).iters = 2)
      ∧ ((vfi [[(1:ℚ)]] (1/2) (1/1000) 2).converged = true
         → (vfi [[(1:ℚ)]] (1/2) (1/1000) 2).dist ≤ 1/1000)) :=
  ⟨by decide, C8_convergence_flag [[1]] (1/2) (1/1000) 2 (by decide)⟩

/-- C2 (code bug): when the cumulative sum never reaches the draw, the
simulator does NOT clamp to the last valid index — the inner while loop walks
past the last row of `pi` and reads it out of bounds (numpy `IndexError`,
modeled as `none`): here the reachable column sums to 3/4 < 7/8. -/
theorem C2_out_of_bounds :
    sim_markov [0, 1] [[1/2, 1/2], [1/4, 1/4]] [0, 7/8] = none := by
  norm_num [sim_markov, simLoop, simStep, simSelect, simSelectAux]

/-- C4 (counterexample): the simulator does not use the current state's row
of the matrix argument: starting from state 1 with draw 4/5, the smallest
index whose row-1 cumulative probability exceeds the draw is 0 (grid value
10), yet the code, scanning the current state's column, lands on grid value
20. -/
theorem C4_counterexample :
    sim_markov [10, 20] [[3/10, 7/10], [9/10, 1/10]] [0, 4/5] = some [20, 20]
    ∧ specRowSelect [[3/10, 7/10], [9/10, 1/10]] 1 (4/5) = some 0
    ∧ ([10, 20] : List ℚ).getD 0 0 = 10
    ∧ (20 : ℚ) ≠ 10 := by
  norm_num [sim_markov, simLoop, simStep, simSelect, simSelectAux,
    specRowSelect, specRowSelectAux]

theorem colCum_zero (pi : List (List ℚ)) (old : ℕ) : colCum pi old 0 = 0 := rfl

theorem colCum_succ_cons (row : List ℚ) (rest : List (List ℚ)) (old t : ℕ) :
    colCum (row :: rest) old (t + 1) = row.getD old 0 + colCum rest old t := by
  simp [colCum]

theorem simSelectAux_spec (old : ℕ) (u : ℚ) :
    ∀ (rows : List (List ℚ)) (sp : ℚ) (ind0 r : ℕ),
      (∀ row ∈ rows, old < row.length) →
      simSelectAux old u rows sp ind0 = some r →
      (¬ sp < u ∧ r = if 0 < ind0 then ind0 - 1 else ind0)
      ∨ (sp < u ∧ ∃ k, k + 1 ≤ rows.length ∧ r = ind0 + k
          ∧ u ≤ sp + colCum rows old (k + 1)
          ∧ ∀ t, t ≤ k → sp + colCum rows old t < u) := by
  intro rows
  induction rows with
  | nil =>
    intro sp ind0 r hlen hr
    rw [simSelectAux] at hr
    by_cases h : sp < u
    · rw [if_pos h] at hr; cases hr
    · rw [if_neg h] at hr
      exact Or.inl ⟨h, (Option.some_inj.1 hr).symm⟩
  | cons row rest ih =>
    intro sp ind0 r hlen hr
    rw [simSelectAux] at hr
    by_cases h : sp < u
    · rw [if_pos h] at hr
      have hold : old < row.length := hlen row (List.mem_cons_self row rest)
      rw [List.getElem?_eq_getElem hold] at hr
      have hp : row[old] = row.getD old 0 := (getD_eq_getElem_of_lt 0 hold).symm
      right
      refine ⟨h, ?_⟩
      rcases ih (sp + row[old]) (ind0 + 1) r
          (fun q hq => hlen q (List.mem_cons_of_mem row hq)) hr with
        ⟨h2, h3⟩ | ⟨h2, k, hk1, hk2, hk3, hk4⟩
      · refine ⟨0, by simp, ?_, ?_, ?_⟩
        · rw [h3]; simp
        · rw [colCum_succ_cons, colCum_zero, ← hp]
          have := not_lt.1 h2
          rw [add_zero]
          exact this
        · intro t ht
          rw [Nat.le_zero.1 ht, colCum_zero, add_zero]
          exact h
      · refine ⟨k + 1, by simpa using hk1, by omega, ?_, ?_⟩
        · rw [colCum_succ_cons, ← hp, ← add_assoc]
          exact hk3
        · intro t ht
          cases t with
          | zero => rw [colCum_zero, add_zero]; exact h
          | succ t2 =>
            rw [colCum_succ_cons, ← hp, ← add_assoc]
            exact hk4 t2 (by omega)
    · rw [if_neg h] at hr
      exact Or.inl ⟨h, (Option.some_inj.1 hr).symm⟩

/-- C4 (amended): at each step the simulator selects the next-state index as
the smallest index `ind` whose cumulative transition probability taken from
the current state's column of the matrix argument (`pi[0][old] + ... +
pi[ind][old]`, `colCum`) reaches (is ≥) the draw — index 0 when the draw is
≤ 0 — and that index stays within the matrix's row count. -/
theorem C4_selection (pi : List (List ℚ)) (old : ℕ) (u : ℚ) (ind : ℕ)
    (hrows : ∀ row ∈ pi, old < row.length)
    (hsel : simSelect pi old u = some ind) :
    (u ≤ 0 → ind = 0)
    ∧ (0 < u →
        ind + 1 ≤ pi.length
        ∧ u ≤ colCum pi old (ind + 1)
        ∧ ∀ m, m ≤ ind → colCum pi old m < u) := by
  rcases simSelectAux_spec old u pi 0 0 ind hrows hsel with ⟨h1, h2⟩ | ⟨h1, k, hk1, hk2, hk3, hk4⟩
  · constructor
    · intro _
      rw [h2]
      simp
    · intro hu
      exact absurd hu (by simpa using h1)
  · constructor
    · intro hu
      have := hk4 0 (Nat.zero_le k)
      rw [colCum_zero, add_zero] at this
      exact absurd hu (by linarith)
    · intro _
      have hik : ind = k := by omega
      subst hik
      refine ⟨hk1, by simpa using hk3, ?_⟩
      intro m hm
      have := hk4 m hm
      simpa using this

/-- Witness for C4's amended theorem at a concrete 2-state instance. -/
theorem C4_selection_witness :
    (∀ row ∈ ([[3/10, 7/10], [9/10, 1/10]] : List (List ℚ)), 1 < row.length)
    ∧ simSelect [[3/10, 7/10], [9/10, 1/10]] 1 (4/5) = some 1
    ∧ (((4:ℚ)/5 ≤ 0 → (1:ℕ) = 0)
      ∧ (0 < (4:ℚ)/5 →
          1 + 1 ≤ ([[3/10, 7/10], [9/10, 1/10]] : List (List ℚ)).length
          ∧ (4:ℚ)/5 ≤ colCum [[3/10, 7/10], [9/10, 1/10]] 1 (1 + 1)
          ∧ ∀ m, m ≤ 1 → colCum [[3/10, 7/10], [9/10, 1/10]] 1 m < 4/5)) :=
  ⟨by decide, by norm_num [simSelect, simSelectAux],
    C4_selection [[3/10, 7/10], [9/10, 1/10]] 1 (4/5) 1 (by decide)
      (by norm_num [simSelect, simSelectAux])⟩

theorem simLoop_spec (zg : List ℚ) (pi : List (List ℚ)) :
    ∀ (us : List ℚ) (old : ℕ) (out : List ℚ),
      simLoop zg pi us old = some out →
      out.length = us.length ∧ ∀ z ∈ out, z ∈ zg := by
  intro us
  induction us with
  | nil =>
    intro old out h
    rw [simLoop] at h
    rw [← Option.some_inj.1 h]
    exact ⟨rfl, by intro z hz; cases hz⟩
  | cons u us2 ih =>
    intro old out h
    rw [simLoop] at h
    cases hstep : simStep zg pi old u with
    | none => rw [hstep] at h; cases h
    | some zi =>
      rw [hstep] at h
      have h2 : Option.map (fun t => zi.1 :: t) (simLoop zg pi us2 zi.2)
          = some out := h
      cases hrest : simLoop zg pi us2 zi.2 with
      | none => rw [hrest] at h2; cases h2
      | some t =>
        rw [hrest] at h2
        simp at h2
        obtain ⟨hlen, hmem⟩ := ih zi.2 t hrest
        have hz : zi.1 ∈ zg := by
          rw [simStep] at hstep
          cases hsel : simSelect pi old u with
          | none => rw [hsel] at hstep; cases hstep
          | some ind =>
            rw [hsel] at hstep
            have hstep2 : (match zg[ind]? with
                | none => none
                | some z => some (z, ind) : Option (ℚ × ℕ)) = some zi := hstep
            cases hg : zg[ind]? with
            | none => rw [hg] at hstep2; cases hstep2
            | some z =>
              rw [hg] at hstep2
              have hzi : zi = (z, ind) := (Option.some_inj.1 hstep2).symm
              rw [hzi]
              exact List.getElem?_mem hg
        constructor
        · rw [← h2]
          simp [hlen]
        · intro z hzmem
          rw [← h2] at hzmem
          rcases List.mem_cons.1 hzmem with h3 | h3
          · rw [h3]; exact hz
          · exact hmem z h3

/-- C10: whenever the simulator's index selection stays within bounds (the
run returns a value) and the grid and draw vector are nonempty, the returned
sequence has length num_draws, every element is a grid value, and the first
element is `z_grid[⌈(N−1)/2⌉]`. -/
theorem C10_sim_markov_shape (zg : List ℚ) (pi : List (List ℚ))
    (u : List ℚ) (out : List ℚ)
    (hN : 1 ≤ zg.length) (hu : 1 ≤ u.length)
    (hout : sim_markov zg pi u = some out) :
    out.length = u.length
    ∧ (∀ z ∈ out, z ∈ zg)
    ∧ out.head? = zg[(zg.length - 1 + 1) / 2]? := by
  have hceil : (zg.length - 1 + 1) / 2 = zg.length / 2 := by omega
  cases u with
  | nil => simp at hu
  | cons u0 us =>
    rw [sim_markov] at hout
    cases hg : zg[zg.length / 2]? with
    | none =>
      rw [hg] at hout
      cases hout
    | some z0 =>
      rw [hg] at hout
      have hout2 : Option.map (fun t => z0 :: t) (simLoop zg pi us (zg.length / 2))
          = some out := hout
      cases hrest : simLoop zg pi us (zg.length / 2) with
      | none => rw [hrest] at hout2; cases hout2
      | some t =>
        rw [hrest] at hout2
        simp at hout2
        obtain ⟨hlen, hmem⟩ := simLoop_spec zg pi us (zg.length / 2) t hrest
        refine ⟨?_, ?_, ?_⟩
        · rw [← hout2]
          simp [hlen]
        · intro z hz
          rw [← hout2] at hz
          rcases List.mem_cons.1 hz with h2 | h2
          · rw [h2]
            exact List.getElem?_mem hg
          · exact hmem z h2
        · rw [← hout2, hceil]
          simp [hg]

theorem sum_rouwenPad (P : ℕ → ℕ → ℝ) (k i : ℕ) (hik : i < k)
    (hP : ∑ j in Finset.range k, P i j = 1) :
    ∑ j in Finset.range (k + 1), rouwenPad P k i j = 1 := by
  rw [Finset.sum_range_succ]
  rw [show rouwenPad P k i k = 0 by simp [rouwenPad]]
  rw [add_zero]
  rw [← hP]
  apply Finset.sum_congr rfl
  intro j hj
  simp only [Finset.mem_range] at hj
  simp [rouwenPad, hik, hj]

theorem sum_rouwenPad_out (P : ℕ → ℕ → ℝ) (k i : ℕ) (hik : ¬ i < k) :
    ∑ j in Finset.range (k + 1), rouwenPad P k i j = 0 := by
  apply Finset.sum_eq_zero
  intro j hj
  simp [rouwenPad, hik]

theorem sum_rouwenPad_shift (P : ℕ → ℕ → ℝ) (k i : ℕ) :
    ∑ j in Finset.range (k + 1),
        (if 1 ≤ j then rouwenPad P k i (j - 1) else (0 : ℝ))
      = ∑ j in Finset.range k, rouwenPad P k i j := by
  rw [Finset.sum_range_succ']
  simp

theorem sum_rouwenPad_no_last (P : ℕ → ℕ → ℝ) (k i : ℕ) (hik : i < k)
    (hP : ∑ j in Finset.range k, P i j = 1) :
    ∑ j in Finset.range k, rouwenPad P k i j = 1 := by
  rw [← hP]
  apply Finset.sum_congr rfl
  intro j hj
  simp only [Finset.mem_range] at hj
  simp [rouwenPad, hik, hj]

theorem rouwenExpand_row_sum (p q : ℝ) (P : ℕ → ℕ → ℝ) (k : ℕ) (hk : 1 ≤ k)
    (hP : ∀ i, i < k → ∑ j in Finset.range k, P i j = 1) :
    ∀ i, i < k + 1 → ∑ j in Finset.range (k + 1), rouwenExpand p q P k i j = 1 := by
  intro i hi
  unfold rouwenExpand
  rw [← Finset.mul_sum]
  rw [Finset.sum_add_distrib, Finset.sum_add_distrib, Finset.sum_add_distrib]
  rw [← Finset.mul_sum, ← Finset.mul_sum, ← Finset.mul_sum, ← Finset.mul_sum]
  rw [sum_rouwenPad_shift]
  by_cases hi0 : i = 0
  · subst hi0
    rw [sum_rouwenPad P k 0 (by omega) (hP 0 (by omega))]
    rw [sum_rouwenPad_no_last P k 0 (by omega) (hP 0 (by omega))]
    simp
  · have h1i : 1 ≤ i := by omega
    have him1 : i - 1 < k := by omega
    have e3 : ∑ j in Finset.range (k + 1),
        (if 1 ≤ i then rouwenPad P k (i - 1) j else (0 : ℝ)) = 1 := by
      rw [Finset.sum_congr rfl (fun j _ => if_pos h1i)]
      exact sum_rouwenPad P k (i - 1) him1 (hP (i - 1) him1)
    have e4 : ∑ j in Finset.range (k + 1),
        (if 1 ≤ i ∧ 1 ≤ j then rouwenPad P k (i - 1) (j - 1) else (0 : ℝ)) = 1 := by
      have hcong : ∀ j, (if 1 ≤ i ∧ 1 ≤ j then rouwenPad P k (i - 1) (j - 1) else (0 : ℝ))
          = (if 1 ≤ j then rouwenPad P k (i - 1) (j - 1) else (0 : ℝ)) := by
        intro j
        by_cases h1j : 1 ≤ j
        · rw [if_pos ⟨h1i, h1j⟩, if_pos h1j]
        · rw [if_neg (fun hc => h1j hc.2), if_neg h1j]
      rw [Finset.sum_congr rfl (fun j _ => hcong j)]
      rw [sum_rouwenPad_shift]
      exact sum_rouwenPad_no_last P k (i - 1) him1 (hP (i - 1) him1)
    rw [e3, e4]
    by_cases hik : i < k
    · rw [sum_rouwenPad P k i hik (hP i hik)]
      rw [sum_rouwenPad_no_last P k i hik (hP i hik)]
      rw [if_pos (⟨h1i, by omega⟩ : 1 ≤ i ∧ i ≤ k - 1)]
      ring
    · rw [sum_rouwenPad_out P k i hik]
      rw [show ∑ j in Finset.range k, rouwenPad P k i j = 0 from
        Finset.sum_eq_zero (fun j _ => by simp [rouwenPad, hik])]
      rw [if_neg (by omega : ¬ (1 ≤ i ∧ i ≤ k - 1))]
      ring

theorem rouwenMat_row_sum (p q : ℝ) :
    ∀ (k : ℕ), 1 ≤ k → ∀ i, i < k →
      ∑ j in Finset.range k, rouwenMat p q k i j = 1 := by
  intro k
  induction k with
  | zero => intro h; cases h
  | succ m ih =>
    intro _ i hi
    cases m with
    | zero =>
      interval_cases i
      simp [rouwenMat]
    | succ m2 =>
      have hk1 : 1 ≤ m2 + 1 := Nat.succ_le_succ (Nat.zero_le m2)
      exact rouwenExpand_row_sum p q (rouwenMat p q (m2 + 1)) (m2 + 1) hk1
        (ih hk1) i hi

theorem tauchenPi_row_sum (mu rho sigma_eps sz span : ℝ) (N i : ℕ)
    (hN : 1 ≤ N) :
    ∑ j in Finset.range N, tauchenPi mu rho sigma_eps sz span N i j = 1 := by
  unfold tauchenPi
  rw [Finset.sum_range_sub (fun j => tauchenCum mu rho sigma_eps sz span N i j)]
  rw [tauchenCum, tauchenCum]
  rw [if_neg (by omega : ¬ N = 0), if_pos (le_refl N), if_pos rfl]
  rw [sub_zero]

theorem thPi_row_sum (w : ℕ → ℕ → ℝ) (N i : ℕ)
    (h : (∑ k in Finset.range N, w i k) ≠ 0) :
    ∑ j in Finset.range N, thPi w N i j = 1 := by
  unfold thPi
  rw [← Finset.sum_div]
  rw [div_self h]

theorem stdNormalPdf_continuous : Continuous stdNormalPdf := by
  unfold stdNormalPdf
  fun_prop

theorem stdNormalPdf_nonneg (x : ℝ) : 0 ≤ stdNormalPdf x := by
  unfold stdNormalPdf
  have h1 : (0 : ℝ) ≤ (Real.sqrt (2 * Real.pi))⁻¹ := by positivity
  exact mul_nonneg h1 (Real.exp_nonneg _)

theorem gauss_exp_eq (x : ℝ) : Real.exp (-(x ^ 2) / 2)
    = Real.exp (-(1 / 2 : ℝ) * x ^ 2) := by
  congr 1
  ring

theorem gauss_integrable : MeasureTheory.Integrable
    (fun x : ℝ => Real.exp (-(x ^ 2) / 2)) := by
  have h := integrable_exp_neg_mul_sq (by norm_num : (0 : ℝ) < 1 / 2)
  have heq : (fun x : ℝ => Real.exp (-(x ^ 2) / 2))
      = fun x : ℝ => Real.exp (-(1 / 2 : ℝ) * x ^ 2) := by
    funext x
    exact gauss_exp_eq x
  rw [heq]
  exact h

theorem stdNormalPdf_integrable : MeasureTheory.Integrable stdNormalPdf := by
  unfold stdNormalPdf
  exact gauss_integrable.const_mul _

theorem sqrt_two_pi_pos : 0 < Real.sqrt (2 * Real.pi) :=
  Real.sqrt_pos.2 (by positivity)

theorem integral_gauss_exp : ∫ x : ℝ, Real.exp (-(x ^ 2) / 2)
    = Real.sqrt (2 * Real.pi) := by
  have heq : (fun x : ℝ => Real.exp (-(x ^ 2) / 2))
      = fun x : ℝ => Real.exp (-(1 / 2 : ℝ) * x ^ 2) := by
    funext x
    exact gauss_exp_eq x
  rw [heq]
  rw [integral_gaussian]
  congr 1
  rw [div_div_eq_mul_div, div_one, mul_comm]

theorem integral_stdNormalPdf : ∫ x : ℝ, stdNormalPdf x = 1 := by
  unfold stdNormalPdf
  rw [MeasureTheory.integral_mul_left]
  rw [integral_gauss_exp]
  exact inv_mul_cancel₀ (ne_of_gt sqrt_two_pi_pos)

theorem stdNormalCdf_sub (a b : ℝ) :
    stdNormalCdf b - stdNormalCdf a = ∫ x in a..b, stdNormalPdf x := by
  unfold stdNormalCdf
  exact intervalIntegral.integral_Iic_sub_Iic
    stdNormalPdf_integrable.integrableOn stdNormalPdf_integrable.integrableOn

theorem stdNormalCdf_mono : Monotone stdNormalCdf := by
  intro a b hab
  unfold stdNormalCdf
  apply MeasureTheory.setIntegral_mono_set stdNormalPdf_integrable.integrableOn
  · exact Filter.Eventually.of_forall stdNormalPdf_nonneg
  · exact MeasureTheory.ae_of_all _ (fun x hx => le_trans hx hab)

theorem stdNormalCdf_nonneg (t : ℝ) : 0 ≤ stdNormalCdf t :=
  MeasureTheory.setIntegral_nonneg measurableSet_Iic
    (fun x _ => stdNormalPdf_nonneg x)

theorem stdNormalCdf_le_one (t : ℝ) : stdNormalCdf t ≤ 1 := by
  rw [← integral_stdNormalPdf]
  exact MeasureTheory.setIntegral_le_integral stdNormalPdf_integrable
    (Filter.Eventually.of_forall stdNormalPdf_nonneg)

theorem stdNormalCdf_continuous : Continuous stdNormalCdf := by
  have heq : stdNormalCdf
      = fun t => stdNormalCdf 0 + ∫ x in (0 : ℝ)..t, stdNormalPdf x := by
    funext t
    rw [← stdNormalCdf_sub 0 t]
    ring
  rw [heq]
  exact continuous_const.add (stdNormalPdf_integrable.continuous_primitive 0)

theorem stdNormalCdf_tendsto_atTop :
    Filter.Tendsto stdNormalCdf Filter.atTop (nhds 1) := by
  have h := MeasureTheory.tendsto_setIntegral_of_monotone
    (s := fun t : ℝ => Set.Iic t) (f := stdNormalPdf)
    (fun t => measurableSet_Iic)
    (fun a b hab => Set.Iic_subset_Iic.2 hab)
    (by rw [Set.iUnion_Iic]; exact stdNormalPdf_integrable.integrableOn)
  rw [Set.iUnion_Iic, MeasureTheory.setIntegral_univ, integral_stdNormalPdf] at h
  exact h

theorem stdNormalCdf_tendsto_atBot :
    Filter.Tendsto stdNormalCdf Filter.atBot (nhds 0) := by
  have h := MeasureTheory.tendsto_setIntegral_of_antitone
    (s := fun t : ℝ => Set.Iic (-t)) (f := stdNormalPdf)
    (fun t => measurableSet_Iic)
    (fun a b hab => Set.Iic_subset_Iic.2 (neg_le_neg hab))
    ⟨0, stdNormalPdf_integrable.integrableOn⟩
  have hempty : ⋂ t : ℝ, Set.Iic (-t) = ∅ := by
    ext x
    simp only [Set.mem_iInter, Set.mem_Iic, Set.mem_empty_iff_false, iff_false,
      not_forall, not_le]
    exact ⟨-x + 1, by linarith⟩
  rw [hempty] at h
  simp only [MeasureTheory.Measure.restrict_empty,
    MeasureTheory.integral_zero_measure] at h
  have h2 : Filter.Tendsto (fun t : ℝ => stdNormalCdf (-(-t)))
      Filter.atBot (nhds 0) :=
    h.comp Filter.tendsto_neg_atBot_atTop
  simpa using h2

theorem stdNormalCdf_exists_eq {p : ℝ} (h0 : 0 < p) (h1 : p < 1) :
    ∃ c, stdNormalCdf c = p := by
  have ha : ∃ a, stdNormalCdf a < p := by
    have := stdNormalCdf_tendsto_atBot.eventually_lt_const h0
    exact this.exists
  have hb : ∃ b, p < stdNormalCdf b := by
    have := stdNormalCdf_tendsto_atTop.eventually_const_lt h1
    exact this.exists
  obtain ⟨a, ha⟩ := ha
  obtain ⟨b, hb⟩ := hb
  have hmem : p ∈ Set.Icc (stdNormalCdf a) (stdNormalCdf b) :=
    ⟨le_of_lt ha, le_of_lt hb⟩
  have hrange := intermediate_value_univ a b stdNormalCdf_continuous hmem
  exact hrange

theorem stdNormalCdf_ppf {p : ℝ} (h0 : 0 < p) (h1 : p < 1) :
    stdNormalCdf (stdNormalPpf p) = p := by
  unfold stdNormalPpf
  exact Function.invFun_eq (stdNormalCdf_exists_eq h0 h1)

theorem translate_set (g : ℝ → ℝ) (d : ℝ) (s : Set ℝ) :
    ∫ x in Set.preimage (fun x : ℝ => x - d) s, g (x - d) = ∫ y in s, g y :=
  (MeasureTheory.measurePreserving_sub_right MeasureTheory.volume d).setIntegral_preimage_emb
    (Homeomorph.subRight d).measurableEmbedding g s

theorem scale_set (g : ℝ → ℝ) {sz : ℝ} (hsz : 0 < sz) (s : Set ℝ) :
    ∫ y in s, g y = sz * ∫ x in Set.preimage (fun x : ℝ => sz * x) s, g (sz * x) := by
  have hemb : MeasurableEmbedding (fun x : ℝ => sz * x) :=
    (Homeomorph.mulLeft₀ sz (ne_of_gt hsz)).measurableEmbedding
  have h := hemb.setIntegral_map (μ := MeasureTheory.volume) g s
  rw [Real.map_volume_mul_left (ne_of_gt hsz)] at h
  rw [MeasureTheory.Measure.restrict_smul] at h
  rw [MeasureTheory.integral_smul_measure] at h
  rw [ENNReal.toReal_ofReal (abs_nonneg _), abs_of_pos (inv_pos.2 hsz)] at h
  rw [smul_eq_mul] at h
  rw [← h]
  rw [← mul_assoc, mul_inv_cancel₀ (ne_of_gt hsz), one_mul]

theorem stdGauss_Iic (v : ℝ) :
    ∫ x in Set.Iic v, Real.exp (-(x ^ 2) / 2)
      = Real.sqrt (2 * Real.pi) * stdNormalCdf v := by
  unfold stdNormalCdf
  rw [← MeasureTheory.integral_mul_left]
  apply MeasureTheory.setIntegral_congr_fun measurableSet_Iic
  intro x _
  show Real.exp (-(x ^ 2) / 2)
      = Real.sqrt (2 * Real.pi) * stdNormalPdf x
  unfold stdNormalPdf
  rw [← mul_assoc, mul_inv_cancel₀ (ne_of_gt sqrt_two_pi_pos), one_mul]

set_option maxHeartbeats 1000000 in
theorem scaledGauss_Iic (mu sz t : ℝ) (hsz : 0 < sz) :
    ∫ x in Set.Iic t, Real.exp (-((x - mu) ^ 2) / (2 * sz ^ 2))
      = sz * Real.sqrt (2 * Real.pi) * stdNormalCdf ((t - mu) / sz) := by
  have h1 : Set.preimage (fun x : ℝ => x - mu) (Set.Iic (t - mu)) = Set.Iic t := by
    ext x
    simp [sub_le_sub_iff_right]
  have step1 : ∫ x in Set.Iic t, Real.exp (-((x - mu) ^ 2) / (2 * sz ^ 2))
      = ∫ y in Set.Iic (t - mu), Real.exp (-(y ^ 2) / (2 * sz ^ 2)) := by
    have ht := translate_set (fun y => Real.exp (-(y ^ 2) / (2 * sz ^ 2))) mu
      (Set.Iic (t - mu))
    rw [h1] at ht
    exact ht
  have h2 : Set.preimage (fun x : ℝ => sz * x) (Set.Iic (t - mu))
      = Set.Iic ((t - mu) / sz) := by
    ext x
    simp only [Set.mem_preimage, Set.mem_Iic]
    rw [le_div_iff₀ hsz, mul_comm]
  have step2 : ∫ y in Set.Iic (t - mu), Real.exp (-(y ^ 2) / (2 * sz ^ 2))
      = sz * ∫ x in Set.Iic ((t - mu) / sz), Real.exp (-(x ^ 2) / 2) := by
    have hs := scale_set (fun y => Real.exp (-(y ^ 2) / (2 * sz ^ 2))) hsz
      (Set.Iic (t - mu))
    rw [h2] at hs
    rw [hs]
    congr 1
    apply MeasureTheory.setIntegral_congr_fun measurableSet_Iic
    intro x _
    show Real.exp (-((sz * x) ^ 2) / (2 * sz ^ 2)) = Real.exp (-(x ^ 2) / 2)
    congr 1
    field_simp
    ring
  rw [step1, step2, stdGauss_Iic]
  ring

set_option maxHeartbeats 1000000 in
theorem scaledGauss_univ (mu sz : ℝ) (hsz : 0 < sz) :
    ∫ x : ℝ, Real.exp (-((x - mu) ^ 2) / (2 * sz ^ 2))
      = sz * Real.sqrt (2 * Real.pi) := by
  have step1 : ∫ x : ℝ, Real.exp (-((x - mu) ^ 2) / (2 * sz ^ 2))
      = ∫ y : ℝ, Real.exp (-(y ^ 2) / (2 * sz ^ 2)) := by
    have ht := translate_set (fun y => Real.exp (-(y ^ 2) / (2 * sz ^ 2))) mu
      Set.univ
    rw [Set.preimage_univ] at ht
    rw [← MeasureTheory.setIntegral_univ, ← MeasureTheory.setIntegral_univ
      (f := fun y : ℝ => Real.exp (-(y ^ 2) / (2 * sz ^ 2)))]
    exact ht
  have step2 : ∫ y : ℝ, Real.exp (-(y ^ 2) / (2 * sz ^ 2))
      = sz * ∫ x : ℝ, Real.exp (-(x ^ 2) / 2) := by
    have hs := scale_set (fun y => Real.exp (-(y ^ 2) / (2 * sz ^ 2))) hsz
      Set.univ
    rw [Set.preimage_univ] at hs
    rw [← MeasureTheory.setIntegral_univ, ← MeasureTheory.setIntegral_univ
      (f := fun x : ℝ => Real.exp (-(x ^ 2) / 2))]
    rw [hs]
    congr 1
    apply MeasureTheory.setIntegral_congr_fun MeasurableSet.univ
    intro x _
    show Real.exp (-((sz * x) ^ 2) / (2 * sz ^ 2)) = Real.exp (-(x ^ 2) / 2)
    congr 1
    field_simp
    ring
  rw [step1, step2, integral_gauss_exp]

theorem scaledGauss_integrable (mu sz : ℝ) (hsz : 0 < sz) :
    MeasureTheory.Integrable
      (fun x : ℝ => Real.exp (-((x - mu) ^ 2) / (2 * sz ^ 2))) := by
  have hb : (0 : ℝ) < 1 / (2 * sz ^ 2) := by positivity
  have h0 := integrable_exp_neg_mul_sq hb
  have heq : (fun y : ℝ => Real.exp (-(1 / (2 * sz ^ 2)) * y ^ 2))
      = fun y : ℝ => Real.exp (-(y ^ 2) / (2 * sz ^ 2)) := by
    funext y
    congr 1
    field_simp
  rw [heq] at h0
  exact h0.comp_sub_right mu

theorem sigmaZ_pos (rho sigma_eps : ℝ) (hs : 0 < sigma_eps) (hr : |rho| < 1) :
    0 < sigmaZ rho sigma_eps := by
  unfold sigmaZ
  apply div_pos hs
  apply Real.sqrt_pos.2
  have h2 : rho ^ 2 < 1 := by
    have h3 := abs_lt.1 hr
    nlinarith [h3.1, h3.2]
  linarith

theorem cdf_at_zCut (mu sz : ℝ) (hsz : 0 < sz) (N k : ℕ)
    (h0 : 0 < k) (hk : k < N) :
    stdNormalCdf ((zCut mu sz N k - mu) / sz) = (k : ℝ) / (N : ℝ) := by
  have hN0 : (0 : ℝ) < (N : ℝ) := by
    exact_mod_cast lt_trans h0 hk
  have hk0 : (0 : ℝ) < (k : ℝ) := by exact_mod_cast h0
  have hkN : (k : ℝ) < (N : ℝ) := by exact_mod_cast hk
  unfold zCut
  rw [show (sz * stdNormalPpf ((k : ℝ) / (N : ℝ)) + mu - mu) / sz
      = stdNormalPpf ((k : ℝ) / (N : ℝ)) by field_simp]
  exact stdNormalCdf_ppf (div_pos hk0 hN0) ((div_lt_one hN0).2 hkN)

theorem zCut_le (mu sz : ℝ) (hsz : 0 < sz) (N k : ℕ)
    (h0 : 0 < k) (hk1 : k + 1 < N) :
    zCut mu sz N k ≤ zCut mu sz N (k + 1) := by
  by_contra hlt
  push_neg at hlt
  have hmono : (zCut mu sz N (k + 1) - mu) / sz ≤ (zCut mu sz N k - mu) / sz := by
    apply div_le_div_of_nonneg_right ?_ hsz.le
    linarith
  have h2 := stdNormalCdf_mono hmono
  rw [cdf_at_zCut mu sz hsz N k h0 (by omega)] at h2
  rw [cdf_at_zCut mu sz hsz N (k + 1) (by omega) hk1] at h2
  have hN0 : (0 : ℝ) < (N : ℝ) := by
    exact_mod_cast (by omega : 0 < N)
  rw [div_le_div_iff_of_pos_right hN0] at h2
  push_cast at h2
  linarith

theorem acIntegrand_sum (mu rho sigma_eps sz : ℝ) (N : ℕ) (hN : 1 ≤ N) (x : ℝ) :
    ∑ j in Finset.range N, acIntegrand mu rho sigma_eps sz N j x
      = Real.exp (-((x - mu) ^ 2) / (2 * sz ^ 2)) := by
  unfold acIntegrand
  rw [← Finset.mul_sum]
  rw [Finset.sum_range_sub (fun j => acCdfTerm mu rho sigma_eps sz N j x)]
  rw [show acCdfTerm mu rho sigma_eps sz N N x = 1 by
    unfold acCdfTerm
    rw [if_neg (by omega : ¬ N = 0), if_pos (le_refl N)]]
  rw [show acCdfTerm mu rho sigma_eps sz N 0 x = 0 by
    unfold acCdfTerm
    rw [if_pos rfl]]
  rw [sub_zero, mul_one]

theorem acCdfTerm_mem (mu rho sigma_eps sz : ℝ) (N j : ℕ) (x : ℝ) :
    0 ≤ acCdfTerm mu rho sigma_eps sz N j x
      ∧ acCdfTerm mu rho sigma_eps sz N j x ≤ 1 := by
  unfold acCdfTerm
  by_cases h0 : j = 0
  · rw [if_pos h0]
    norm_num
  · rw [if_neg h0]
    by_cases hN : N ≤ j
    · rw [if_pos hN]
      norm_num
    · rw [if_neg hN]
      exact ⟨stdNormalCdf_nonneg _, stdNormalCdf_le_one _⟩

theorem acCdfTerm_continuous (mu rho sigma_eps sz : ℝ) (N j : ℕ) :
    Continuous (fun x => acCdfTerm mu rho sigma_eps sz N j x) := by
  unfold acCdfTerm
  by_cases h0 : j = 0
  · simp only [if_pos h0]
    exact continuous_const
  · simp only [if_neg h0]
    by_cases hN : N ≤ j
    · simp only [if_pos hN]
      exact continuous_const
    · simp only [if_neg hN]
      apply stdNormalCdf_continuous.comp
      fun_prop

theorem acIntegrand_continuous (mu rho sigma_eps sz : ℝ) (N j : ℕ) :
    Continuous (fun x => acIntegrand mu rho sigma_eps sz N j x) := by
  unfold acIntegrand
  apply Continuous.mul
  · fun_prop
  · exact (acCdfTerm_continuous mu rho sigma_eps sz N (j + 1)).sub
      (acCdfTerm_continuous mu rho sigma_eps sz N j)

theorem acIntegrand_integrable (mu rho sigma_eps sz : ℝ) (hsz : 0 < sz)
    (N j : ℕ) (s : Set ℝ) :
    MeasureTheory.IntegrableOn
      (fun x => acIntegrand mu rho sigma_eps sz N j x) s := by
  apply MeasureTheory.IntegrableOn.mono_set (t := Set.univ) ?_ (Set.subset_univ s)
  rw [MeasureTheory.integrableOn_univ]
  apply MeasureTheory.Integrable.mono (scaledGauss_integrable mu sz hsz)
  · exact (acIntegrand_continuous mu rho sigma_eps sz N j).aestronglyMeasurable
  · apply Filter.Eventually.of_forall
    intro x
    rw [Real.norm_eq_abs, Real.norm_eq_abs]
    unfold acIntegrand
    rw [abs_mul]
    have hg : |Real.exp (-((x - mu) ^ 2) / (2 * sz ^ 2))|
        = Real.exp (-((x - mu) ^ 2) / (2 * sz ^ 2)) :=
      abs_of_nonneg (Real.exp_nonneg _)
    rw [hg]
    have h1 := acCdfTerm_mem mu rho sigma_eps sz N (j + 1) x
    have h2 := acCdfTerm_mem mu rho sigma_eps sz N j x
    have habs : |acCdfTerm mu rho sigma_eps sz N (j + 1) x
        - acCdfTerm mu rho sigma_eps sz N j x| ≤ 1 := by
      rw [abs_le]
      constructor
      · linarith [h1.1, h2.2]
      · linarith [h1.2, h2.1]
    calc Real.exp (-((x - mu) ^ 2) / (2 * sz ^ 2))
          * |acCdfTerm mu rho sigma_eps sz N (j + 1) x
              - acCdfTerm mu rho sigma_eps sz N j x|
        ≤ Real.exp (-((x - mu) ^ 2) / (2 * sz ^ 2)) * 1 :=
          mul_le_mul_of_nonneg_left habs (Real.exp_nonneg _)
      _ = Real.exp (-((x - mu) ^ 2) / (2 * sz ^ 2)) := mul_one _

theorem acCell_measurable (mu sz : ℝ) (N i : ℕ) :
    MeasurableSet (acCell mu sz N i) := by
  unfold acCell
  split_ifs
  · exact measurableSet_Iic
  · exact measurableSet_Ioi
  · exact measurableSet_Ioc

set_option maxHeartbeats 1000000 in
theorem acCell_mass (mu sz : ℝ) (hsz : 0 < sz) (N i : ℕ)
    (hN : 2 ≤ N) (hi : i < N) :
    ∫ x in acCell mu sz N i, Real.exp (-((x - mu) ^ 2) / (2 * sz ^ 2))
      = sz * Real.sqrt (2 * Real.pi) / (N : ℝ) := by
  have hN0 : (0 : ℝ) < (N : ℝ) := by
    exact_mod_cast (by omega : 0 < N)
  unfold acCell
  by_cases h0 : i = 0
  · rw [if_pos h0]
    rw [scaledGauss_Iic mu sz _ hsz]
    rw [cdf_at_zCut mu sz hsz N 1 (by omega) (by omega)]
    push_cast
    ring
  · rw [if_neg h0]
    by_cases hlast : i + 1 = N
    · rw [if_pos hlast]
      have hsplit := intervalIntegral.integral_Iic_add_Ioi (b := zCut mu sz N i)
        (μ := MeasureTheory.volume)
        (scaledGauss_integrable mu sz hsz).integrableOn
        (scaledGauss_integrable mu sz hsz).integrableOn
      have htot := scaledGauss_univ mu sz hsz
      have hIic := scaledGauss_Iic mu sz (zCut mu sz N i) hsz
      rw [cdf_at_zCut mu sz hsz N i (by omega) (by omega)] at hIic
      have hiN : ((i : ℝ)) = (N : ℝ) - 1 := by
        have h2 : ((i : ℕ) : ℝ) + 1 = ((N : ℕ) : ℝ) := by
          exact_mod_cast congrArg (fun m : ℕ => (m : ℝ)) hlast
        linarith
      have hIoi : ∫ x in Set.Ioi (zCut mu sz N i),
          Real.exp (-((x - mu) ^ 2) / (2 * sz ^ 2))
          = sz * Real.sqrt (2 * Real.pi)
            - sz * Real.sqrt (2 * Real.pi) * (((N : ℝ) - 1) / (N : ℝ)) := by
        have h2 : ∫ x in Set.Ioi (zCut mu sz N i),
            Real.exp (-((x - mu) ^ 2) / (2 * sz ^ 2))
            = (∫ x : ℝ, Real.exp (-((x - mu) ^ 2) / (2 * sz ^ 2)))
              - ∫ x in Set.Iic (zCut mu sz N i),
                Real.exp (-((x - mu) ^ 2) / (2 * sz ^ 2)) := by
          linarith [hsplit]
        rw [h2, htot, hIic, hiN]
      rw [hIoi]
      field_simp
      ring
    · rw [if_neg hlast]
      have hle : zCut mu sz N i ≤ zCut mu sz N (i + 1) :=
        zCut_le mu sz hsz N i (by omega) (by omega)
      have hIoc : ∫ x in Set.Ioc (zCut mu sz N i) (zCut mu sz N (i + 1)),
          Real.exp (-((x - mu) ^ 2) / (2 * sz ^ 2))
          = (∫ x in Set.Iic (zCut mu sz N (i + 1)),
              Real.exp (-((x - mu) ^ 2) / (2 * sz ^ 2)))
            - ∫ x in Set.Iic (zCut mu sz N i),
              Real.exp (-((x - mu) ^ 2) / (2 * sz ^ 2)) := by
        rw [intervalIntegral.integral_Iic_sub_Iic
          (scaledGauss_integrable mu sz hsz).integrableOn
          (scaledGauss_integrable mu sz hsz).integrableOn]
        rw [intervalIntegral.integral_of_le hle]
      rw [hIoc]
      rw [scaledGauss_Iic mu sz _ hsz, scaledGauss_Iic mu sz _ hsz]
      rw [cdf_at_zCut mu sz hsz N (i + 1) (by omega) (by omega)]
      rw [cdf_at_zCut mu sz hsz N i (by omega) (by omega)]
      push_cast
      field_simp
      ring

set_option maxHeartbeats 1000000 in
theorem acPi_row_sum (mu rho sigma_eps : ℝ) (N i : ℕ) (hN : 2 ≤ N)
    (hs : 0 < sigma_eps) (hr : |rho| < 1) (hi : i < N) :
    ∑ j in Finset.range N, acPi mu rho sigma_eps N i j = 1 := by
  have hsz := sigmaZ_pos rho sigma_eps hs hr
  have hN0 : (0 : ℝ) < (N : ℝ) := by
    exact_mod_cast (by omega : 0 < N)
  unfold acPi
  rw [← Finset.mul_sum]
  rw [← MeasureTheory.integral_finset_sum _
    (fun j _ => acIntegrand_integrable mu rho sigma_eps (sigmaZ rho sigma_eps)
      hsz N j (acCell mu (sigmaZ rho sigma_eps) N i))]
  have hcong := MeasureTheory.setIntegral_congr_fun
    (μ := MeasureTheory.volume)
    (acCell_measurable mu (sigmaZ rho sigma_eps) N i)
    (f := fun x => ∑ j in Finset.range N,
      acIntegrand mu rho sigma_eps (sigmaZ rho sigma_eps) N j x)
    (g := fun x => Real.exp (-((x - mu) ^ 2) / (2 * (sigmaZ rho sigma_eps) ^ 2)))
    (fun x _ => acIntegrand_sum mu rho sigma_eps (sigmaZ rho sigma_eps) N
      (by omega) x)
  rw [hcong]
  rw [acCell_mass mu (sigmaZ rho sigma_eps) hsz N i hN hi]
  rw [show Real.sqrt (2 * Real.pi * (sigmaZ rho sigma_eps) ^ 2)
      = Real.sqrt (2 * Real.pi) * sigmaZ rho sigma_eps by
    rw [Real.sqrt_mul (by positivity), Real.sqrt_sq hsz.le]]
  field_simp
  ring

/-- C5: in exact real arithmetic every row of each discretization method's
transition matrix sums to exactly 1: the notebook's Adda-Cooper construction
(over exact integration), and the spec-modelled Rouwenhorst recursion, Tauchen
rule (CDF differences with absorbed tails) and row-normalized Tauchen-Hussey
matrix (whose row weight sums must be nonzero). -/
theorem C5_row_sums :
    (∀ (mu rho sigma_eps : ℝ) (N i : ℕ), 2 ≤ N → 0 < sigma_eps → |rho| < 1 →
      i < N → ∑ j in Finset.range N, acPi mu rho sigma_eps N i j = 1)
    ∧ (∀ (rho : ℝ) (k : ℕ), 1 ≤ k → ∀ i, i < k →
        ∑ j in Finset.range k, rouwen rho k i j = 1)
    ∧ (∀ (mu rho sigma_eps sz span : ℝ) (N i : ℕ), 1 ≤ N →
        ∑ j in Finset.range N, tauchenPi mu rho sigma_eps sz span N i j = 1)
    ∧ (∀ (w : ℕ → ℕ → ℝ) (N i : ℕ), (∑ k in Finset.range N, w i k) ≠ 0 →
        ∑ j in Finset.range N, thPi w N i j = 1) :=
  ⟨fun mu rho se N i hN hs hr hi => acPi_row_sum mu rho se N i hN hs hr hi,
   fun rho k hk i hik =>
     rouwenMat_row_sum ((1 + rho) / 2) ((1 + rho) / 2) k hk i hik,
   fun mu rho se sz sp N i hN => tauchenPi_row_sum mu rho se sz sp N i hN,
   fun w N i h => thPi_row_sum w N i h⟩

/-- Witness for C5 at concrete parameter values. -/
theorem C5_row_sums_witness :
    (∑ j in Finset.range 2, acPi 0 (1/2) 1 2 0 j = 1)
    ∧ (∑ j in Finset.range 1, rouwen (1/2) 1 0 j = 1)
    ∧ (∑ j in Finset.range 1, tauchenPi 0 (1/2) 1 1 1 1 0 j = 1)
    ∧ (∑ j in Finset.range 1, thPi (fun _ _ => 1) 1 0 j = 1) :=
  ⟨C5_row_sums.1 0 (1/2) 1 2 0 (by norm_num) (by norm_num)
    (by rw [abs_of_pos]; norm_num; norm_num) (by norm_num),
   C5_row_sums.2.1 (1/2) 1 (by norm_num) 0 (by norm_num),
   C5_row_sums.2.2.1 0 (1/2) 1 1 1 1 0 (by norm_num),
   C5_row_sums.2.2.2 (fun _ _ => 1) 1 0 (by simp)⟩

/-- C6: for every k_i > 0 the notebook's cash-flow entry `e[i, j]` equals
the spec's payoff formula π(k_i) − (k_j − (1−δ)k_i) −
(ψ/2)·((k_j−(1−δ)k_i)/k_i)²·k_i with π(k) =
(1−α_l)·(α_l/w)^(α_l/(1−α_l))·k^(α_k/(1−α_l)), over exact real arithmetic. -/
theorem C6_payoff_entry (alpha_k alpha_l delta psi w ki kj : ℝ)
    (hki : 0 < ki) :
    eCode alpha_k alpha_l delta psi w ki kj
      = payoffSpec alpha_k alpha_l delta psi w ki kj := by
  have hk0 : (0 : ℝ) ≤ ki := le_of_lt hki
  have hkne : ki ≠ 0 := ne_of_gt hki
  unfold eCode opCode payoffSpec piSpec
  rw [← Real.rpow_mul hk0, mul_one_div]
  field_simp
  ring

/-- Witness for C6 at concrete parameter values. -/
theorem C6_payoff_entry_witness :
    (0 : ℝ) < 1
    ∧ eCode (1/4) (1/4) (1/2) 1 1 1 2 = payoffSpec (1/4) (1/4) (1/2) 1 1 1 2 :=
  ⟨by norm_num, C6_payoff_entry (1/4) (1/4) (1/2) 1 1 1 2 (by norm_num)⟩

theorem kstar_eq (alpha_k alpha_l delta w betafirm : ℝ)
    (hb0 : 0 < betafirm) (hb1 : betafirm < 1) (hd0 : 0 < delta)
    (hak : 0 < alpha_k) (hal : 0 < alpha_l) (hsum : alpha_k + alpha_l < 1)
    (hw : 0 < w) :
    kstarCode alpha_k alpha_l delta w betafirm 1
      = kstarSpec alpha_k alpha_l delta w betafirm := by
  have hA : 0 < 1 / betafirm - 1 + delta := by
    have h1 : 1 < 1 / betafirm := one_lt_one_div hb0 hb1
    linarith
  have h1l : 0 < 1 - alpha_l := by linarith
  have hs : 0 < 1 - alpha_k - alpha_l := by linarith
  have hB : 0 < (w / alpha_l) ^ (alpha_l / (1 - alpha_l)) :=
    Real.rpow_pos_of_pos (div_pos hw hal) _
  set A := 1 / betafirm - 1 + delta with hAdef
  set B := (w / alpha_l) ^ (alpha_l / (1 - alpha_l)) with hBdef
  have hX : 0 < A * B / alpha_k := div_pos (mul_pos hA hB) hak
  have hne1 : alpha_k + alpha_l - 1 ≠ 0 := by
    intro hcon
    rw [show alpha_k + alpha_l - 1 = -(1 - alpha_k - alpha_l) by ring] at hcon
    have h4 := neg_eq_zero.1 hcon
    exact absurd h4 (ne_of_gt hs)
  have hexp : (1 - alpha_l) / (alpha_k + alpha_l - 1)
      = -(1 - alpha_l) * (1 / (1 - alpha_k - alpha_l)) := by
    field_simp
    ring
  unfold kstarCode kstarSpec
  rw [Real.one_rpow, mul_one]
  rw [hexp]
  have hXle := le_of_lt hX
  rw [Real.rpow_mul hXle]
  congr 1
  rw [Real.rpow_neg hXle]
  rw [Real.div_rpow (mul_pos hA hB).le hak.le]
  rw [Real.mul_rpow hA.le hB.le]
  rw [hBdef]
  rw [← Real.rpow_mul (div_pos hw hal).le, div_mul_cancel₀ _ (ne_of_gt h1l)]
  rw [Real.div_rpow hak.le hA.le]
  rw [show alpha_l / w = (w / alpha_l)⁻¹ by rw [inv_div]]
  rw [Real.inv_rpow (div_pos hw hal).le]
  have hApow : 0 < A ^ (1 - alpha_l) := Real.rpow_pos_of_pos hA _
  have hkpow : 0 < alpha_k ^ (1 - alpha_l) := Real.rpow_pos_of_pos hak _
  have hwpow : 0 < (w / alpha_l) ^ alpha_l :=
    Real.rpow_pos_of_pos (div_pos hw hal) _
  field_simp

theorem kstarSpec_pos (alpha_k alpha_l delta w betafirm : ℝ)
    (hb0 : 0 < betafirm) (hb1 : betafirm < 1) (hd0 : 0 < delta)
    (hak : 0 < alpha_k) (hal : 0 < alpha_l) (hw : 0 < w) :
    0 < kstarSpec alpha_k alpha_l delta w betafirm := by
  have hA : 0 < 1 / betafirm - 1 + delta := by
    have h1 : 1 < 1 / betafirm := one_lt_one_div hb0 hb1
    linarith
  have h1 : 0 < (alpha_k / (1 / betafirm - 1 + delta)) ^ (1 - alpha_l) :=
    Real.rpow_pos_of_pos (div_pos hak hA) _
  have h2 : 0 < (alpha_l / w) ^ alpha_l :=
    Real.rpow_pos_of_pos (div_pos hal hw) _
  exact Real.rpow_pos_of_pos (mul_pos h1 h2) _

theorem Kgrid_getElem (ub delta : ℝ) (dens n i : ℕ) (hi : i < n) :
    (Kgrid ub delta dens n)[i]?
      = some (ub * (1 - delta) ^ ((i : ℝ) / (dens : ℝ))) := by
  rw [Kgrid, List.getElem?_map, List.getElem?_range hi]
  rfl

theorem Kgrid_length (ub delta : ℝ) (dens n : ℕ) :
    (Kgrid ub delta dens n).length = n := by
  rw [Kgrid, List.length_map, List.length_range]

/-- C7: under the parameter restrictions, the code's `kstar` expression
equals the spec's closed form k* = [(α_k/(1/β−1+δ))^(1−α_l)·(α_l/w)^(α_l)]
^(1/(1−α_k−α_l)); the grid's i-th element from the top equals
k_max·(1−δ)^(i/density) with k_max = 2k*; every grid point is strictly
positive; and the grid is strictly increasing. -/
theorem C7_capital_grid (alpha_k alpha_l delta w betafirm : ℝ) (dens : ℕ)
    (hb0 : 0 < betafirm) (hb1 : betafirm < 1) (hd0 : 0 < delta)
    (hd1 : delta < 1) (hak : 0 < alpha_k) (hal : 0 < alpha_l)
    (hsum : alpha_k + alpha_l < 1) (hw : 0 < w) (hdens : 1 ≤ dens) :
    kstarCode alpha_k alpha_l delta w betafirm 1
      = kstarSpec alpha_k alpha_l delta w betafirm
    ∧ (∀ i, i < (kvecCode alpha_k alpha_l delta w betafirm dens).length →
        (kvecCode alpha_k alpha_l delta w betafirm dens).reverse[i]?
          = some (2 * kstarSpec alpha_k alpha_l delta w betafirm
              * (1 - delta) ^ ((i : ℝ) / (dens : ℝ))))
    ∧ (∀ x ∈ kvecCode alpha_k alpha_l delta w betafirm dens, 0 < x)
    ∧ (∀ i j, i < j →
        j < (kvecCode alpha_k alpha_l delta w betafirm dens).length →
        (kvecCode alpha_k alpha_l delta w betafirm dens).getD i 0
          < (kvecCode alpha_k alpha_l delta w betafirm dens).getD j 0) := by
  have hks : kstarCode alpha_k alpha_l delta w betafirm 1
      = kstarSpec alpha_k alpha_l delta w betafirm :=
    kstar_eq alpha_k alpha_l delta w betafirm hb0 hb1 hd0 hak hal hsum hw
  have hkpos : 0 < kstarCode alpha_k alpha_l delta w betafirm 1 := by
    rw [hks]
    exact kstarSpec_pos alpha_k alpha_l delta w betafirm hb0 hb1 hd0 hak hal hw
  have hub : 0 < 2 * kstarCode alpha_k alpha_l delta w betafirm 1 := by linarith
  have hbase0 : (0 : ℝ) < 1 - delta := by linarith
  have hbase1 : 1 - delta < 1 := by linarith
  have hdr : (0 : ℝ) < (dens : ℝ) := by
    have h5 : 0 < dens := hdens
    exact_mod_cast h5
  refine ⟨hks, ?_, ?_, ?_⟩
  · intro i hi
    rw [kvecCode, List.reverse_reverse]
    rw [kvecCode, List.length_reverse, Kgrid_length] at hi
    rw [Kgrid_getElem _ _ _ _ _ hi, hks]
  · intro x hx
    rw [kvecCode, List.mem_reverse, Kgrid] at hx
    obtain ⟨j, hjmem, hjx⟩ := List.mem_map.1 hx
    rw [← hjx]
    exact mul_pos hub (Real.rpow_pos_of_pos hbase0 _)
  · intro i j hij hj
    rw [kvecCode, List.length_reverse, Kgrid_length] at hj
    have hi : i < gridSize (1 / 1000)
        (2 * kstarCode alpha_k alpha_l delta w betafirm 1) delta dens :=
      lt_trans hij hj
    have hKlen : (Kgrid (2 * kstarCode alpha_k alpha_l delta w betafirm 1)
        delta dens (gridSize (1 / 1000)
          (2 * kstarCode alpha_k alpha_l delta w betafirm 1) delta dens)).length
        = gridSize (1 / 1000) (2 * kstarCode alpha_k alpha_l delta w betafirm 1)
            delta dens := Kgrid_length _ _ _ _
    have hgi : (kvecCode alpha_k alpha_l delta w betafirm dens)[i]?
        = some (2 * kstarCode alpha_k alpha_l delta w betafirm 1
            * (1 - delta) ^ (((gridSize (1 / 1000)
                (2 * kstarCode alpha_k alpha_l delta w betafirm 1) delta dens
                - 1 - i : ℕ) : ℝ) / (dens : ℝ))) := by
      rw [kvecCode, List.getElem?_reverse (by rw [hKlen]; exact hi)]
      rw [hKlen]
      exact Kgrid_getElem _ _ _ _ _ (by omega)
    have hgj : (kvecCode alpha_k alpha_l delta w betafirm dens)[j]?
        = some (2 * kstarCode alpha_k alpha_l delta w betafirm 1
            * (1 - delta) ^ (((gridSize (1 / 1000)
                (2 * kstarCode alpha_k alpha_l delta w betafirm 1) delta dens
                - 1 - j : ℕ) : ℝ) / (dens : ℝ))) := by
      rw [kvecCode, List.getElem?_reverse (by rw [hKlen]; exact hj)]
      rw [hKlen]
      exact Kgrid_getElem _ _ _ _ _ (by omega)
    rw [List.getD_eq_getElem?_getD, List.getD_eq_getElem?_getD, hgi, hgj]
    simp only [Option.getD_some]
    have hexplt : (((gridSize (1 / 1000)
        (2 * kstarCode alpha_k alpha_l delta w betafirm 1) delta dens
        - 1 - j : ℕ) : ℝ) / (dens : ℝ))
        < (((gridSize (1 / 1000)
        (2 * kstarCode alpha_k alpha_l delta w betafirm 1) delta dens
        - 1 - i : ℕ) : ℝ) / (dens : ℝ)) := by
      rw [div_lt_div_iff_of_pos_right hdr]
      exact_mod_cast (by omega :
        gridSize (1 / 1000) (2 * kstarCode alpha_k alpha_l delta w betafirm 1)
          delta dens - 1 - j
        < gridSize (1 / 1000) (2 * kstarCode alpha_k alpha_l delta w betafirm 1)
            delta dens - 1 - i)
    exact mul_lt_mul_of_pos_left
      (Real.rpow_lt_rpow_of_exponent_gt hbase0 hbase1 hexplt) hub

/-- Witness for C7 at concrete parameter values. -/
theorem C7_capital_grid_witness :
    (0 : ℝ) < 1/2 ∧ (1/2 : ℝ) < 1 ∧ (0 : ℝ) < 1/2 ∧ (1/2 : ℝ) < 1
    ∧ (0 : ℝ) < 1/4 ∧ (0 : ℝ) < 1/4 ∧ (1/4 : ℝ) + 1/4 < 1 ∧ (0 : ℝ) < 1
    ∧ (1 : ℕ) ≤ 1
    ∧ (kstarCode (1/4) (1/4) (1/2) 1 (1/2) 1 = kstarSpec (1/4) (1/4) (1/2) 1 (1/2)
      ∧ (∀ i, i < (kvecCode (1/4) (1/4) (1/2) 1 (1/2) 1).length →
          (kvecCode (1/4) (1/4) (1/2) 1 (1/2) 1).reverse[i]?
            = some (2 * kstarSpec (1/4) (1/4) (1/2) 1 (1/2)
                * (1 - 1/2) ^ ((i : ℝ) / ((1 : ℕ) : ℝ))))
      ∧ (∀ x ∈ kvecCode (1/4) (1/4) (1/2) 1 (1/2) 1, 0 < x)
      ∧ (∀ i j, i < j → j < (kvecCode (1/4) (1/4) (1/2) 1 (1/2) 1).length →
          (kvecCode (1/4) (1/4) (1/2) 1 (1/2) 1).getD i 0
            < (kvecCode (1/4) (1/4) (1/2) 1 (1/2) 1).getD j 0)) :=
  ⟨by norm_num, by norm_num, by norm_num, by norm_num, by norm_num, by norm_num,
    by norm_num, by norm_num, le_refl 1,
    C7_capital_grid (1/4) (1/4) (1/2) 1 (1/2) 1 (by norm_num) (by norm_num)
      (by norm_num) (by norm_num) (by norm_num) (by norm_num) (by norm_num)
      (by norm_num) (le_refl 1)⟩

/-- Witness for C10 at a concrete 2-state instance. -/
theorem C10_sim_markov_shape_witness :
    1 ≤ ([10, 20] : List ℚ).length
    ∧ 1 ≤ ([0, 4/5] : List ℚ).length
    ∧ sim_markov [10, 20] [[3/10, 7/10], [9/10, 1/10]] [0, 4/5] = some [20, 20]
    ∧ (([20, 20] : List ℚ).length = ([0, 4/5] : List ℚ).length
      ∧ (∀ z ∈ ([20, 20] : List ℚ), z ∈ ([10, 20] : List ℚ))
      ∧ ([20, 20] : List ℚ).head?
          = ([10, 20] : List ℚ)[(([10, 20] : List ℚ).length - 1 + 1) / 2]?) :=
  ⟨by decide, by decide,
    by norm_num [sim_markov, simLoop, simStep, simSelect, simSelectAux],
    C10_sim_markov_shape [10, 20] [[3/10, 7/10], [9/10, 1/10]] [0, 4/5] [20, 20]
      (by decide) (by decide)
      (by norm_num [sim_markov, simLoop, simStep, simSelect, simSelectAux])⟩
